import Mathlib

/-!
Verification of the multi-column Plookup argument (`ecc/bw6-761/fr/plookup/table.go`)
and the Ring-SIS hash (`sis` package over the bn254 scalar field) against their
natural-language specification.

The Go code is shallowly embedded: slices become lists, machine integers become
`Nat` (the byte-level arithmetic in the source never overflows a byte, so no
wrap-around is needed), field elements become `ZMod p` for the concrete prime of
each package, fallible code returns `Except`/`Option`, and an out-of-range slice
index (a Go panic) is made explicit through the `PResult` wrapper.  External
collaborators that the specification declares out of scope (the NTT service,
BLAKE2b/SHA-256 based randomness, the KZG commitment scheme and the single-column
lookup oracle) are taken as function parameters.
-/

set_option maxRecDepth 100000

namespace Spec2Proof

/-- Outcome of running a Go function that may panic (out-of-range slice index). -/
inductive PResult (α : Type) where
  | panics : PResult α
  | ok (val : α) : PResult α
deriving DecidableEq

/-- Fuel-driven bit length: `bitLenAux fuel n` halves `n` until it reaches 0,
mirroring `big.Int.BitLen`.  Structural in the fuel so that it reduces in the
kernel. -/
def bitLenAux : ℕ → ℕ → ℕ
  | 0, _ => 0
  | fuel + 1, n => if n = 0 then 0 else bitLenAux fuel (n / 2) + 1

/-- Bit length of a natural number, as `math/big`'s `BitLen` computes it. -/
def bitLenN (n : ℕ) : ℕ := bitLenAux n n

/-- Fuel-driven ceiling base-2 logarithm: `clogAux fuel n` counts the halvings
(rounding up) needed to bring `n` to 1. -/
def clogAux : ℕ → ℕ → ℕ
  | 0, _ => 0
  | fuel + 1, n => if n ≤ 1 then 0 else clogAux fuel ((n + 1) / 2) + 1

/-- Ceiling base-2 logarithm. -/
def clogTwo (n : ℕ) : ℕ := clogAux n n

/-- Modelled from the spec: the cardinality of the domain built by
`fft.NewDomain(m, ...)` (the `fft` package is not part of the sources under
verification).  Per the spec it is "the smallest power-of-two domain `D` with
`D.Cardinality ≥ target`". -/
def nextPow2 (n : ℕ) : ℕ := 2 ^ clogTwo n

/-! ## Ring-SIS hash (package `sis`, bn254 scalar field) -/

/-- The bn254 scalar-field modulus (`fr.Modulus()` in the `sis` package). -/
def frModulus : ℕ :=
  21888242871839275222246405745257275088548364400416034343698204186575808495617

/-- bn254 scalar-field elements: `fr.Element` values, identified with their
canonical residue. -/
abbrev Fb := ZMod frModulus

instance : NeZero frModulus := ⟨by norm_num [frModulus]⟩

/-- `ErrNotAPowerOfTwo`, the only error the `sis` package declares. -/
inductive SisErr where
  | notAPowerOfTwo : SisErr
deriving DecidableEq

/-- The `fft.Domain` stored inside an `RSis` instance, reduced to the data the
constructor fills in: its cardinality and the coset shift. -/
structure SisDomain where
  Cardinality : ℕ
  shift : Fb

/-- The `RSis` struct.  Bytes are naturals below 256; `buffer` is the internal
`bytes.Buffer`. -/
structure RSis where
  buffer : List ℕ
  A : List (List Fb)
  AfftCosetBitreversed : List (List Fb)
  LogTwoBound : ℕ
  NbBytesToSum : ℕ
  Domain : SisDomain
  Degree : ℕ

/-- The fixed `2²⁸`-th root of unity of bn254 used by `NewRSis` for the coset
shift. -/
def shiftBase : Fb :=
  (19103219067921713944291392827692070036145651957329286315305642004821462161904 : Fb)

/-- `NewRSis(seed, logTwoDegree, logTwoBound, keySize)`.  The BLAKE2b-based row
generator `genRandom` and the domain's forward coset NTT are external
collaborators, passed as `gen` and `fftD`.  The function never returns a
non-nil error. -/
def newRSis (gen : ℕ → ℕ → ℕ → Fb) (fftD : List Fb → List Fb)
    (seed logTwoDegree logTwoBound keySize : ℕ) : RSis × Option SisErr :=
  let degree := 2 ^ logTwoDegree
  let shift := shiftBase ^ (2 ^ (28 - (logTwoDegree + 1)))
  let A := (List.range keySize).map (fun i => (List.range degree).map (fun j => gen seed i j))
  let AHat := A.map fftD
  ({ buffer := []
     A := A
     AfftCosetBitreversed := AHat
     LogTwoBound := logTwoBound
     NbBytesToSum := logTwoBound * degree * keySize / 8
     Domain := { Cardinality := degree, shift := shift }
     Degree := degree }, none)

/-- `(*RSis).Write`: append the bytes to the buffer (always succeeds; the Go
return value `(len(p), nil)` carries no information). -/
def writeR (r : RSis) (p : List ℕ) : RSis := { r with buffer := r.buffer ++ p }

/-- `(*RSis).Reset`: empty the buffer. -/
def resetR (r : RSis) : RSis := { r with buffer := [] }

/-- `(*RSis).Size`: `len(r.A[0]) * fr.Modulus().BitLen() / 8`. -/
def sizeR (r : RSis) : ℕ := (r.A.getD 0 []).length * bitLenN frModulus / 8

/-- Bit `t` of the absorbed stream in the MSB-first per-byte order the Sum
loop produces for `mBits`. -/
def bitAt (stream : List ℕ) (t : ℕ) : ℕ :=
  stream.getD (t / 8) 0 / 2 ^ (7 - t % 8) % 2

/-- The natural number obtained by assembling coefficient `i` from
`logTwoBound` consecutive bits of the stream, exactly as the Sum loop fills its
`W+1`-byte big-endian scratch buffer (`W = nbBytesPerCoefficients`,
`offset = nbBitsPerCoefficients % 8`). -/
def coeffVal (B : ℕ) (stream : List ℕ) (i : ℕ) : ℕ :=
  let offset := B % 8
  let W := (B - B % 8) / 8
  (∑ j in Finset.range offset, bitAt stream (i * B + j) * 2 ^ (offset - 1 - j)) * 256 ^ W
    + ∑ j in Finset.range W,
        (∑ k in Finset.range 8, bitAt stream (i * B + offset + 8 * j + k) * 2 ^ (7 - k))
          * 256 ^ (W - 1 - j)

/-- The vector `m` built by `Sum`: `sizeM = r.Degree * len(r.A)` coefficients,
of which the first `totalNbBits / nbBitsPerCoefficients` are assembled from the
stream (`m[i].SetBytes(buf)` reduces the big-endian buffer modulo the field
order) and the rest stay at their zero value. -/
def mVector (B sizeM nbBytes : ℕ) (stream : List ℕ) : List Fb :=
  (List.range sizeM).map
    (fun i => if i < nbBytes * 8 / B then ((coeffVal B stream i : ℕ) : Fb) else 0)

/-- `(RSis).MulMod`: pointwise product of two evaluation-form polynomials (the
inverse NTT is deferred). -/
def mulModR (p q : List Fb) : List Fb :=
  (List.range p.length).map (fun i => p.getD i 0 * q.getD i 0)

/-- The accumulation loop of `Sum`: for each key polynomial, forward-NTT the
matching chunk of `m`, multiply pointwise with `AfftCosetBitreversed[i]` and add
into the running result (initially the zero vector of length `Degree`). -/
def hashRes (fft : List Fb → List Fb) (r : RSis) (m : List Fb) : List Fb :=
  (List.range r.AfftCosetBitreversed.length).foldl
    (fun acc i =>
      let mh := fft ((m.drop (i * r.Degree)).take r.Degree)
      let t := mulModR (r.AfftCosetBitreversed.getD i []) mh
      (List.range r.Degree).map (fun j => acc.getD j 0 + t.getD j 0))
    (List.replicate r.Degree 0)

/-- Big-endian 32-byte serialization of a field element (`fr.Element.Bytes`). -/
def bytesOfF (x : Fb) : List ℕ :=
  (List.range 32).map (fun i => x.val / 256 ^ (31 - i) % 256)

/-- `(*RSis).Sum(b)`: pad the buffer with zero bytes up to `NbBytesToSum`,
consume exactly `NbBytesToSum` bytes from it, unpack them into the coefficient
vector `m`, accumulate `Σᵢ Aᵢ·mᵢ` in evaluation form, inverse-NTT the result
(`fftinv`) and append the big-endian encodings of its `Degree` coefficients to
`b`.  Returns the extended slice together with the instance state after the
buffer reads. -/
def sumR (fft fftinv : List Fb → List Fb) (r : RSis) (b : List ℕ) : List ℕ × RSis :=
  let buf1 := if r.buffer.length < r.NbBytesToSum then
      r.buffer ++ List.replicate (r.NbBytesToSum - r.buffer.length) 0
    else r.buffer
  let stream := buf1.take r.NbBytesToSum
  let rest := buf1.drop r.NbBytesToSum
  let m := mVector r.LogTwoBound (r.Degree * r.A.length) r.NbBytesToSum stream
  let res := fftinv (hashRes fft r m)
  let resBytes := (List.range r.Degree).flatMap (fun i => bytesOfF (res.getD i 0))
  (b ++ resBytes, { r with buffer := rest })

/-! ## Multi-column Plookup (package `plookup`, bw6-761 scalar field) -/

/-- The bw6-761 scalar-field modulus (the `fr` package of `ecc/bw6-761`). -/
def frBW : ℕ :=
  258664426012969094010652733694893533536393512754914660539884262666720468348340822774968888139573360124440321458177

/-- bw6-761 scalar-field elements. -/
abbrev Fp := ZMod frBW

instance : NeZero frBW := ⟨by norm_num [frBW]⟩

/-- The single-column lookup proof (`ProofLookupVector`): only its `f`
commitment is inspected by the code under verification; the remaining fields
are opaque (`rest`). -/
structure PLVProof (D R : Type) where
  f : D
  rest : R

/-- `ProofLookupTables`: the per-row commitments and the inner folded proof. -/
structure ProofLT (D R : Type) where
  fs : List D
  foldedProof : PLVProof D R

/-- Errors `ProveLookupTables` can return: its own `ErrIncompatibleSize`, an
error from the commitment scheme (`CE`), or an error from the inner
single-column prover (`IE`). -/
inductive ProveErr (CE IE : Type) where
  | incompatibleSize : ProveErr CE IE
  | commitErr (e : CE) : ProveErr CE IE
  | innerErr (e : IE) : ProveErr CE IE

/-- Errors `VerifyLookupTables` can return: its own `ErrFoldedCommitment` or an
error from the inner single-column verifier (`VE`). -/
inductive VerifyErrT (VE : Type) where
  | foldedCommitment : VerifyErrT VE
  | inner (e : VE) : VerifyErrT VE

/-- The row-uniformity check loops of `ProveLookupTables` (`len(x[i]) != s`
over the remaining rows). -/
def checkUniform (s : ℕ) : List (List Fp) → Bool
  | [] => true
  | row :: rest => row.length == s && checkUniform s rest

/-- Repeat-last padding of a row to `n` entries, with the Go panic on
`row[len(row)-1]` when the row is empty and at least one padding slot is
needed. -/
def padRowP (row : List Fp) (n : ℕ) : Option (List Fp) :=
  match row with
  | [] => if n = 0 then some [] else none
  | a :: rest =>
      some ((a :: rest).take n
        ++ List.replicate (n - (a :: rest).length) ((a :: rest).getD ((a :: rest).length - 1) 0))

/-- Repeat-last padding as the spec words it ("pads every row to `nbCols` by
repeating its last element"); total, for comparison with `padRowP`. -/
def padSpec (row : List Fp) (n : ℕ) : List Fp :=
  row.take n ++ List.replicate (n - row.length) (row.getD (row.length - 1) 0)

/-- Horner evaluation of the prover's fold loop: starting from the zero
accumulator, for `j = nbRows-1 … 0` multiply by `lam` and add the row value. -/
def hornerFold (lam : Fp) (l : List Fp) : Fp :=
  l.foldr (fun a acc => acc * lam + a) 0

/-- Lines 130–139 of the prover: fold all rows column by column with the
challenge `lam`. -/
def foldTable (lam : Fp) (rows : List (List Fp)) (nbCols : ℕ) : List Fp :=
  (List.range nbCols).map (fun j => hornerFold lam (rows.map (fun row => row.getD j 0)))

/-- The per-row loop of `ProveLookupTables` (lines 96–118): pad the `f` row,
inverse-NTT + bit-reverse + commit it, then pad the `t` row.  On a commitment
error the commitments produced so far are kept (the Go code returns the
partially filled `proof.fs`); a panic in either padding aborts everything. -/
def rowsLoop (fftInv bitRev : List Fp → List Fp) {CE D : Type}
    (commit : List Fp → Except CE D) (nbColumns : ℕ) :
    List (List Fp × List Fp) →
      PResult (Except (List D × CE) (List D × List (List Fp) × List (List Fp)))
  | [] => .ok (.ok ([], [], []))
  | (frow, trow) :: rest =>
    match padRowP frow nbColumns with
    | none => .panics
    | some lf =>
      match commit (bitRev (fftInv lf)) with
      | .error e => .ok (.error ([], e))
      | .ok c =>
        match padRowP trow nbColumns with
        | none => .panics
        | some lt =>
          match rowsLoop fftInv bitRev commit nbColumns rest with
          | .panics => .panics
          | .ok (.error (cs, e)) => .ok (.error (c :: cs, e))
          | .ok (.ok (cs, lfs, lts)) => .ok (.ok (c :: cs, lf :: lfs, lt :: lts))

/-- `ProveLookupTables(srs, f, t)`.  External collaborators are parameters: the
NTT service (`fftInv`, `bitRev`), the KZG commitment (`commit`, with `d0` the
zero digest that `make([]kzg.Digest, nbRows)` fills in), the SHA-256
Fiat–Shamir challenge derivation (`derive`, applied to the bound commitments in
row order) and the single-column prover (`proveVec`, with `ip0` the zero value
of its proof type).  Panics on out-of-range indexing are explicit. -/
def proveLookupTables {D R CE IE : Type}
    (fftInv bitRev : List Fp → List Fp)
    (commit : List Fp → Except CE D)
    (derive : List D → Fp)
    (proveVec : List Fp → List Fp → PLVProof D R × Option IE)
    (d0 : D) (ip0 : PLVProof D R)
    (f t : List (List Fp)) : PResult (ProofLT D R × Option (ProveErr CE IE)) :=
  if f.length ≠ t.length then .ok (⟨[], ip0⟩, some .incompatibleSize)
  else
    match f.get? 0 with
    | none => .panics
    | some f0 =>
      if ¬ checkUniform f0.length (f.drop 1) then .ok (⟨[], ip0⟩, some .incompatibleSize)
      else
        match t.get? 0 with
        | none => .panics
        | some t0 =>
          if ¬ checkUniform t0.length (t.drop 1) then .ok (⟨[], ip0⟩, some .incompatibleSize)
          else
            let nbRows := t.length
            let nbColumns := nextPow2 (if f0.length + 1 < t0.length then t0.length
              else f0.length + 1)
            match rowsLoop fftInv bitRev commit nbColumns (f.zip t) with
            | .panics => .panics
            | .ok (.error (cs, e)) =>
                .ok (⟨cs ++ List.replicate (nbRows - cs.length) d0, ip0⟩,
                  some (.commitErr e))
            | .ok (.ok (cs, lfs, lts)) =>
                let lam := derive cs
                let foldedf := foldTable lam lfs nbColumns
                let foldedt := foldTable lam lts nbColumns
                let inner := proveVec (foldedf.take (nbColumns - 1)) foldedt
                .ok (⟨cs, inner.1⟩, inner.2.map .innerErr)

/-- The digest fold of `VerifyLookupTables` as the spec words it:
"`foldedDigest = fs[nbRows-1]`; for `i = nbRows-2 … 0`:
`foldedDigest ← λ · foldedDigest + fs[i]`" — head recursion on the row list,
`none` when there are no rows. -/
def specFoldDigest {D : Type} (dadd : D → D → D) (dsmul : ℕ → D → D) (blam : ℕ) :
    List D → Option D
  | [] => none
  | [a] => some a
  | a :: b :: rest =>
      (specFoldDigest dadd dsmul blam (b :: rest)).map (fun d => dadd (dsmul blam d) a)

/-- `VerifyLookupTables(srs, proof)`: re-derive `λ` from the bound commitments,
lower it to its canonical integer (`ToBigIntRegular`), Horner-fold the digests
from the highest row, compare with the inner proof's `f` commitment and
otherwise delegate to the single-column verifier.  Digest arithmetic (`dadd`,
`dsmul`) and the inner verifier (`verifyVec`) are external parameters. -/
def verifyLookupTables {D R VE : Type} [DecidableEq D]
    (dadd : D → D → D) (dsmul : ℕ → D → D)
    (derive : List D → Fp)
    (verifyVec : PLVProof D R → Option VE)
    (pr : ProofLT D R) : PResult (Option (VerifyErrT VE)) :=
  let lam := derive pr.fs
  let blam := lam.val
  match pr.fs.getLast? with
  | none => .panics
  | some last =>
    let comf := pr.fs.dropLast.foldr (fun a acc => dadd (dsmul blam acc) a) last
    if comf ≠ pr.foldedProof.f then .ok (some .foldedCommitment)
    else .ok ((verifyVec pr.foldedProof).map VerifyErrT.inner)

/-! ## Concrete instances used by closed evaluations -/

/-- The `TestRSis` configuration (`seed 5, logTwoDegree 1, logTwoBound 4,
keySize 8`), with the external generator and NTT instantiated trivially (the
claims evaluated on it depend only on shapes, not on the key values). -/
def rSisTest : RSis := (newRSis (fun _ _ _ => 0) id 5 1 4 8).1

/-- A minimal instance (`logTwoDegree 0, logTwoBound 8, keySize 1`,
`NbBytesToSum = 1`) whose digest pipeline, with the identity NTT and the
all-ones key, reproduces its single absorbed byte. -/
def rSisOne : RSis := (newRSis (fun _ _ _ => 1) id 7 0 8 1).1

/-- Concrete commitment oracle for closed instantiations: commit to the length. -/
def lenCommit : List Fp → Except Unit ℕ := fun l => .ok l.length

/-- Concrete challenge oracle for closed instantiations. -/
def constDerive : List ℕ → Fp := fun _ => 3

/-- Concrete single-column prover for closed instantiations. -/
def lenProveVec : List Fp → List Fp → PLVProof ℕ Unit × Option Unit :=
  fun q tt => (⟨q.length + tt.length, ()⟩, none)

/-! ## Helper lemmas -/

theorem getD_map_range {α : Type} (g : ℕ → α) (d : α) (n k : ℕ) :
    ((List.range n).map g).getD k d = if k < n then g k else d := by
  by_cases h : k < n
  · rw [if_pos h, List.getD_eq_getElem _ _ (by simpa using h)]
    simp [h]
  · rw [if_neg h, List.getD_eq_default]
    simpa using h

theorem bitAt_le_one (stream : List ℕ) (t : ℕ) : bitAt stream t ≤ 1 :=
  Nat.le_of_lt_succ (Nat.mod_lt _ (by norm_num))

/-- A big-endian digit expansion with digits at most `b - 1` is below `bᵈ`. -/
theorem digits_sum_le (b n : ℕ) (hb : 1 ≤ b) (g : ℕ → ℕ) (hg : ∀ j, g j ≤ b - 1) :
    ∑ j in Finset.range n, g j * b ^ (n - 1 - j) ≤ b ^ n - 1 := by
  have key : ∀ m : ℕ, ∑ j in Finset.range m, (b - 1) * b ^ (m - 1 - j) = b ^ m - 1 := by
    intro m
    induction m with
    | zero => simp
    | succ m ih =>
        rw [Finset.sum_range_succ']
        have h1 : ∀ j ∈ Finset.range m,
            (b - 1) * b ^ (m + 1 - 1 - (j + 1)) = (b - 1) * b ^ (m - 1 - j) := by
          intro j _
          congr 2
          omega
        rw [Finset.sum_congr rfl h1, ih]
        have hexp : m + 1 - 1 - 0 = m := by omega
        rw [hexp]
        obtain ⟨c, rfl⟩ := Nat.exists_eq_add_of_le hb
        have hx : 1 ≤ (1 + c) ^ m := Nat.one_le_pow _ _ (by omega)
        have hpow : (1 + c) ^ (m + 1) = (1 + c) ^ m + c * (1 + c) ^ m := by
          rw [pow_succ]
          ring
        have hc : 1 + c - 1 = c := by omega
        rw [hc, hpow]
        omega
  calc ∑ j in Finset.range n, g j * b ^ (n - 1 - j)
      ≤ ∑ j in Finset.range n, (b - 1) * b ^ (n - 1 - j) := by
        apply Finset.sum_le_sum
        intro j _
        exact Nat.mul_le_mul_right _ (hg j)
    _ = b ^ n - 1 := key n

/-- Each assembled coefficient value is below `2^B`: the scratch buffer's top
byte carries `B mod 8` bits and the remaining `⌊B/8⌋` bytes carry eight bits
each. -/
theorem coeffVal_lt (B : ℕ) (stream : List ℕ) (i : ℕ) :
    coeffVal B stream i < 2 ^ B := by
  rw [coeffVal]
  have hoff : B % 8 + 8 * ((B - B % 8) / 8) = B := by omega
  set offset := B % 8 with hoffdef
  set W := (B - B % 8) / 8 with hWdef
  have h1 : (∑ j in Finset.range offset, bitAt stream (i * B + j) * 2 ^ (offset - 1 - j))
      ≤ 2 ^ offset - 1 :=
    digits_sum_le 2 offset (by norm_num) _ (fun j => bitAt_le_one _ _)
  have h2 : (∑ j in Finset.range W,
        (∑ k in Finset.range 8, bitAt stream (i * B + offset + 8 * j + k) * 2 ^ (7 - k))
          * 256 ^ (W - 1 - j)) ≤ 256 ^ W - 1 := by
    apply digits_sum_le 256 W (by norm_num)
    intro j
    have := digits_sum_le 2 8 (by norm_num)
      (fun k => bitAt stream (i * B + offset + 8 * j + k)) (fun k => bitAt_le_one _ _)
    simpa using this
  have h256 : (256 : ℕ) ^ W = 2 ^ (8 * W) := by
    rw [pow_mul]
    norm_num
  have hxy : 2 ^ B = 2 ^ offset * 2 ^ (8 * W) := by
    rw [← pow_add, hoff]
  have hx : 1 ≤ 2 ^ offset := Nat.one_le_two_pow
  have hy : 1 ≤ 2 ^ (8 * W) := Nat.one_le_two_pow
  have hyle : 2 ^ (8 * W) ≤ 2 ^ offset * 2 ^ (8 * W) := Nat.le_mul_of_pos_left _ hx
  have hsub : (2 ^ offset - 1) * 2 ^ (8 * W) = 2 ^ offset * 2 ^ (8 * W) - 2 ^ (8 * W) := by
    rw [tsub_mul, one_mul]
  calc (∑ j in Finset.range offset, bitAt stream (i * B + j) * 2 ^ (offset - 1 - j)) * 256 ^ W
        + ∑ j in Finset.range W,
            (∑ k in Finset.range 8, bitAt stream (i * B + offset + 8 * j + k) * 2 ^ (7 - k))
              * 256 ^ (W - 1 - j)
      ≤ (2 ^ offset - 1) * 256 ^ W + (256 ^ W - 1) := by
        exact Nat.add_le_add (Nat.mul_le_mul_right _ h1) h2
    _ < 2 ^ B := by
        rw [h256, hxy, hsub]
        omega

/-! ## Claim theorems: Ring-SIS -/

/-- Claim C9: `Reset` empties the byte buffer and changes nothing else — the
key `A`, its coset-NTT form, the domain, the degree, `LogTwoBound` and
`NbBytesToSum` are untouched. -/
theorem reset_frame (r : RSis) :
    (resetR r).buffer = [] ∧ (resetR r).A = r.A ∧
    (resetR r).AfftCosetBitreversed = r.AfftCosetBitreversed ∧
    (resetR r).Domain = r.Domain ∧ (resetR r).Degree = r.Degree ∧
    (resetR r).LogTwoBound = r.LogTwoBound ∧ (resetR r).NbBytesToSum = r.NbBytesToSum :=
  ⟨rfl, rfl, rfl, rfl, rfl, rfl, rfl⟩

/-- Claim C7: `NewRSis` returns a nil error on every configuration, and the
ring degree of the returned instance is always a power of two (the degree is
computed as `1 << logTwoDegree`, so the `NotAPowerOfTwo` rejection clause of
the spec is vacuous: no reachable configuration has a non-power-of-two
degree, and `ErrNotAPowerOfTwo` is declared but never returned). -/
theorem newRSis_never_errors (gen : ℕ → ℕ → ℕ → Fb) (fftD : List Fb → List Fb)
    (seed logTwoDegree logTwoBound keySize : ℕ) :
    (newRSis gen fftD seed logTwoDegree logTwoBound keySize).2 = none ∧
    ∃ k, (newRSis gen fftD seed logTwoDegree logTwoBound keySize).1.Degree = 2 ^ k :=
  ⟨rfl, logTwoDegree, rfl⟩

/-- Claim C1 (code bug): on the repository's own test configuration
(`logTwoDegree = 1`, so `d = 2`), `Sum` appends `d · 32 = 64` bytes, but
`Size()` computes `d · modulus_bit_length / 8 = 2·254/8 = 63`, and the claim's
formula `d · ⌊modulus_bit_length/8⌋` gives `62`; the three disagree, violating
the size contract `|Sum(prefix)| − |prefix| = Size()` stated by the spec and by
`Size`'s own doc comment. -/
theorem sum_size_disagree :
    (sumR id id rSisTest []).1.length = 64 ∧ sizeR rSisTest = 63 ∧
    rSisTest.Degree * (bitLenN frModulus / 8) = 62 ∧ (64 ≠ 63 ∧ 63 ≠ 62) := by
  refine ⟨by decide, by decide, by decide, by decide, by decide⟩

/-- Claim C8: every coefficient of the vector `m` assembled by `Sum` from
`logTwoBound = B` consecutive bits of the absorbed stream lies in `[0, 2^B)`
(coefficients beyond the filled prefix keep their zero value, also below
`2^B`). -/
theorem coeff_bound_lt (B sizeM nbBytes : ℕ) (stream : List ℕ) (k : ℕ) (_hB : 1 ≤ B) :
    ((mVector B sizeM nbBytes stream).getD k 0).val < 2 ^ B := by
  have hpos : 0 < 2 ^ B := Nat.pos_pow_of_pos _ (by norm_num)
  rw [mVector, getD_map_range]
  split
  · split
    · calc ((coeffVal B stream k : ℕ) : Fb).val
          = coeffVal B stream k % frModulus := ZMod.val_natCast _
        _ ≤ coeffVal B stream k := Nat.mod_le _ _
        _ < 2 ^ B := coeffVal_lt B stream k
    · simp only [ZMod.val_zero]
      exact hpos
  · simp only [ZMod.val_zero]
    exact hpos

/-- Witness for C8 on the repository's test stream with `B = 4`: the first
coefficient is the high nibble of `0xa1`. -/
theorem coeff_bound_lt_witness :
    1 ≤ 4 ∧ ((mVector 4 16 8 [0xa1, 0x90, 0xff, 0x0a, 0x13, 0x59, 0x79, 0xcc]).getD 0 0).val
      < 2 ^ 4 :=
  ⟨by decide, coeff_bound_lt 4 16 8 [0xa1, 0x90, 0xff, 0x0a, 0x13, 0x59, 0x79, 0xcc] 0
    (by decide)⟩

/-- Claim C6 (amended): the drain contract holds whenever the first write does
not exceed `NbBytesToSum`: `Sum` then leaves the buffer empty, so a subsequent
`Write` + `Sum` digests the new bytes alone, exactly as a fresh
`Write` + `Sum` of those bytes would. -/
theorem sum_drain_amended (fft fftinv : List Fb → List Fb) (r : RSis)
    (w1 w2 b : List ℕ) (h0 : r.buffer = []) (h1 : w1.length ≤ r.NbBytesToSum) :
    (sumR fft fftinv (writeR ((sumR fft fftinv (writeR r w1) []).2) w2) b).1
      = (sumR fft fftinv (writeR r w2) b).1 := by
  obtain ⟨buf, A, AH, B, N, Dm, dg⟩ := r
  simp only at h0 h1
  subst h0
  have hstate : (sumR fft fftinv (writeR ⟨[], A, AH, B, N, Dm, dg⟩ w1) []).2
      = ⟨[], A, AH, B, N, Dm, dg⟩ := by
    simp only [writeR, sumR, List.nil_append]
    congr 1
    by_cases hlt : w1.length < N
    · rw [if_pos hlt]
      apply List.drop_eq_nil_of_le
      simp only [List.length_append, List.length_replicate]
      omega
    · rw [if_neg hlt]
      apply List.drop_eq_nil_of_le
      omega
  rw [hstate]

/-- Witness for the amended C6 on the concrete one-byte instance. -/
theorem sum_drain_amended_witness :
    ([3] : List ℕ).length ≤ rSisOne.NbBytesToSum ∧
    (sumR id id (writeR ((sumR id id (writeR rSisOne [3]) []).2) [7]) []).1
      = (sumR id id (writeR rSisOne [7]) []).1 :=
  ⟨by decide, sum_drain_amended id id rSisOne [3] [7] [] rfl (by decide)⟩

/-- Claim C6 (counterexample): with a first write longer than `NbBytesToSum`,
the bytes beyond `NbBytesToSum` survive the first `Sum` in the buffer, so the
second `Write`+`Sum` does not produce the digest of the second write alone. -/
theorem sum_drain_cex :
    (sumR id id (writeR ((sumR id id (writeR rSisOne [0, 5]) []).2) [9]) []).1
      ≠ (sumR id id (writeR rSisOne [9]) []).1 := by
  decide

/-! ## Plookup helper lemmas -/

theorem hornerFold_eq_sum (lam : Fp) (l : List Fp) :
    hornerFold lam l = ∑ i in Finset.range l.length, lam ^ i * l.getD i 0 := by
  induction l with
  | nil => simp [hornerFold]
  | cons a tl ih =>
      have hstep : hornerFold lam (a :: tl) = hornerFold lam tl * lam + a := rfl
      rw [hstep, ih, List.length_cons, Finset.sum_range_succ', Finset.sum_mul]
      simp only [List.getD_cons_succ, List.getD_cons_zero, pow_zero, one_mul]
      congr 1
      apply Finset.sum_congr rfl
      intro i _
      ring

theorem getD_map_of_lt {α β : Type} (g : α → β) (l : List α) (i : ℕ)
    (h : i < l.length) (d : β) (d' : α) : (l.map g).getD i d = g (l.getD i d') := by
  rw [List.getD_eq_getElem _ _ (by simpa using h), List.getD_eq_getElem _ _ h]
  simp

/-! ## Claim theorems: Plookup -/

/-- Claim C3: the prover's Horner folding loop (zero accumulator, rows
processed from `nbRows-1` down to `0`) yields
`foldedf[j] = Σ_{i<nbRows} λⁱ · lfs[i][j]` in every column `j`, and for a
single row the fold is the identity on row 0. -/
theorem prover_fold_horner_sum (lam : Fp) (rows : List (List Fp)) (row : List Fp)
    (nbCols j : ℕ) (hj : j < nbCols) :
    (foldTable lam rows nbCols).getD j 0
        = ∑ i in Finset.range rows.length, lam ^ i * (rows.getD i []).getD j 0
      ∧ (foldTable lam [row] nbCols).getD j 0 = row.getD j 0 := by
  constructor
  · rw [foldTable, getD_map_range, if_pos hj, hornerFold_eq_sum, List.length_map]
    apply Finset.sum_congr rfl
    intro i hi
    congr 1
    rw [getD_map_of_lt _ _ _ (Finset.mem_range.mp hi) _ []]
  · rw [foldTable, getD_map_range, if_pos hj]
    show hornerFold lam [row.getD j 0] = row.getD j 0
    show (0 : Fp) * lam + row.getD j 0 = row.getD j 0
    rw [zero_mul, zero_add]

/-- Witness for C3 at `λ = 2`, two concrete rows, column 0. -/
theorem prover_fold_horner_sum_witness :
    0 < 1 ∧
    ((foldTable 2 [[3], [4]] 1).getD 0 0
        = ∑ i in Finset.range ([[3], [4]] : List (List Fp)).length,
            (2 : Fp) ^ i * (([[3], [4]] : List (List Fp)).getD i []).getD 0 0
      ∧ (foldTable 2 [([5] : List Fp)] 1).getD 0 0 = ([5] : List Fp).getD 0 0) :=
  ⟨by decide, prover_fold_horner_sum 2 [[3], [4]] [5] 1 0 (by decide)⟩

theorem specFoldDigest_eq_foldr {D : Type} (dadd : D → D → D) (dsmul : ℕ → D → D)
    (blam : ℕ) :
    ∀ (l : List D) (last : D), l.getLast? = some last →
      specFoldDigest dadd dsmul blam l
        = some (l.dropLast.foldr (fun a acc => dadd (dsmul blam acc) a) last)
  | [], last => by simp
  | [a], last => by
      intro h
      simp only [List.getLast?_singleton, Option.some.injEq] at h
      subst h
      rfl
  | a :: b :: rest, last => by
      intro h
      have htl : (b :: rest).getLast? = some last := by
        simpa [List.getLast?_cons_cons] using h
      have ih := specFoldDigest_eq_foldr dadd dsmul blam (b :: rest) last htl
      show (specFoldDigest dadd dsmul blam (b :: rest)).map _ = _
      rw [ih]
      rfl

/-- Claim C2: for every proof with at least one row commitment, the verifier
Horner-folds the digests from the highest row with the challenge lowered to its
canonical integer, fails with `FoldedCommitment` exactly when that digest
differs from the inner proof's `f` commitment, and otherwise returns the inner
verifier's verdict. -/
theorem verify_folded_digest {D R VE : Type} [DecidableEq D]
    (dadd : D → D → D) (dsmul : ℕ → D → D) (derive : List D → Fp)
    (verifyVec : PLVProof D R → Option VE) (pr : ProofLT D R) (dg : D)
    (hfold : specFoldDigest dadd dsmul ((derive pr.fs).val) pr.fs = some dg) :
    verifyLookupTables dadd dsmul derive verifyVec pr
      = .ok (if dg ≠ pr.foldedProof.f then some .foldedCommitment
             else (verifyVec pr.foldedProof).map VerifyErrT.inner) := by
  cases hlast : pr.fs.getLast? with
  | none =>
      rw [List.getLast?_eq_none_iff] at hlast
      rw [hlast] at hfold
      simp [specFoldDigest] at hfold
  | some last =>
      have := specFoldDigest_eq_foldr dadd dsmul ((derive pr.fs).val) pr.fs last hlast
      rw [hfold] at this
      have hdg : dg = pr.fs.dropLast.foldr
          (fun a acc => dadd (dsmul ((derive pr.fs).val) acc) a) last := by
        exact Option.some.inj this
      rw [verifyLookupTables, hlast]
      subst hdg
      dsimp only
      split
      · rfl
      · rfl

/-- Witness for C2: the two-commitment proof `fs = [4, 7]` over `D = ℕ` with
challenge `2` folds to `2·7 + 4 = 18 ≠ 5`, so the verifier reports the
`FoldedCommitment` failure. -/
theorem verify_folded_digest_witness :
    specFoldDigest Nat.add Nat.mul (((fun _ => (2 : Fp)) ([4, 7] : List ℕ)).val) [4, 7]
        = some 18 ∧
    verifyLookupTables Nat.add Nat.mul (fun _ => (2 : Fp))
        (fun _ => (none : Option Unit)) (⟨[4, 7], ⟨5, ()⟩⟩ : ProofLT ℕ Unit)
      = .ok (if (18 : ℕ) ≠ (⟨[4, 7], ⟨5, ()⟩⟩ : ProofLT ℕ Unit).foldedProof.f
             then some .foldedCommitment
             else ((fun _ => (none : Option Unit)) (⟨[4, 7], ⟨5, ()⟩⟩ :
                ProofLT ℕ Unit).foldedProof).map VerifyErrT.inner) :=
  ⟨by decide, verify_folded_digest Nat.add Nat.mul (fun _ => (2 : Fp))
    (fun _ => (none : Option Unit)) ⟨[4, 7], ⟨5, ()⟩⟩ 18 (by decide)⟩

/-- Claim C10: at the degenerate shapes the spec's precondition excludes but
the code does not guard, both entry points panic (out-of-range index) instead
of reporting an error: `ProveLookupTables` on zero rows (`f[0]` is read after
the equal-length check) and on a first row of length zero (the padding loop
reads `f[0][-1]`), and `VerifyLookupTables` on a proof with an empty `fs`
(`fs[nbRows-1]` with `nbRows = 0`). -/
theorem degenerate_shapes_panic {D R CE IE VE : Type} [DecidableEq D]
    (fftInv bitRev : List Fp → List Fp) (commit : List Fp → Except CE D)
    (derive : List D → Fp) (proveVec : List Fp → List Fp → PLVProof D R × Option IE)
    (d0 : D) (ip0 : PLVProof D R)
    (dadd : D → D → D) (dsmul : ℕ → D → D) (verifyVec : PLVProof D R → Option VE)
    (ip : PLVProof D R) :
    proveLookupTables fftInv bitRev commit derive proveVec d0 ip0 [] [] = .panics ∧
    proveLookupTables fftInv bitRev commit derive proveVec d0 ip0 [[]] [[]] = .panics ∧
    verifyLookupTables dadd dsmul derive verifyVec ⟨[], ip⟩ = .panics :=
  ⟨rfl, rfl, rfl⟩

theorem checkUniform_iff (s : ℕ) (l : List (List Fp)) :
    checkUniform s l = true ↔ ∀ row ∈ l, row.length = s := by
  induction l with
  | nil => simp [checkUniform]
  | cons row rest ih =>
      simp [checkUniform, ih]

/-- Claim C5: `ProveLookupTables` returns `IncompatibleSize` — with a proof
carrying no commitments — exactly when the two tables have different row
counts, or some row of `f` differs in length from `f`'s first row, or some row
of `t` differs in length from `t`'s first row. -/
theorem incompatible_size_iff {D R CE IE : Type}
    (fftInv bitRev : List Fp → List Fp) (commit : List Fp → Except CE D)
    (derive : List D → Fp) (proveVec : List Fp → List Fp → PLVProof D R × Option IE)
    (d0 : D) (ip0 : PLVProof D R) (f t : List (List Fp)) :
    proveLookupTables fftInv bitRev commit derive proveVec d0 ip0 f t
        = .ok (⟨[], ip0⟩, some .incompatibleSize)
      ↔ (f.length ≠ t.length
         ∨ (∃ row ∈ f, row.length ≠ f.headI.length)
         ∨ (∃ row ∈ t, row.length ≠ t.headI.length)) := by
  by_cases hlen : f.length = t.length
  · rw [proveLookupTables, if_neg (by simpa using hlen)]
    cases f with
    | nil =>
        have ht : t = [] := by
          cases t with
          | nil => rfl
          | cons t0 tr => simp at hlen
        subst ht
        simp
    | cons f0 fr =>
        obtain ⟨t0, tr, rfl⟩ : ∃ t0 tr, t = t0 :: tr := by
          cases t with
          | nil => simp at hlen
          | cons t0 tr => exact ⟨t0, tr, rfl⟩
        simp only [List.get?_cons_zero, List.drop_succ_cons, List.drop_zero, List.headI_cons]
        by_cases hfu : checkUniform f0.length fr = true
        · rw [if_neg (by simp [hfu])]
          by_cases htu : checkUniform t0.length tr = true
          · rw [if_neg (by simp [htu])]
            have hfud := (checkUniform_iff _ _).mp hfu
            have htud := (checkUniform_iff _ _).mp htu
            have hrhs : ¬ ((f0 :: fr).length ≠ (t0 :: tr).length
                ∨ (∃ row ∈ f0 :: fr, row.length ≠ f0.length)
                ∨ (∃ row ∈ t0 :: tr, row.length ≠ t0.length)) := by
              push_neg
              refine ⟨hlen, ?_, ?_⟩
              · intro row hr
                rcases List.mem_cons.mp hr with h | h
                · rw [h]
                · exact hfud row h
              · intro row hr
                rcases List.mem_cons.mp hr with h | h
                · rw [h]
                · exact htud row h
            rw [iff_false_intro hrhs, iff_false]
            cases hloop : rowsLoop fftInv bitRev commit
                (nextPow2 (if f0.length + 1 < t0.length then t0.length else f0.length + 1))
                ((f0 :: fr).zip (t0 :: tr)) with
            | panics => simp [hloop]
            | ok v =>
                cases v with
                | error p =>
                    simp only [hloop]
                    intro h
                    have := (PResult.ok.inj h)
                    have h2 := congrArg Prod.snd this
                    simp at h2
                | ok v' =>
                    obtain ⟨cs, lfs, lts⟩ := v'
                    simp only [hloop]
                    intro h
                    have := (PResult.ok.inj h)
                    have h2 := congrArg Prod.snd this
                    cases hiv : (proveVec ((foldTable (derive cs) lfs
                        (nextPow2 (if f0.length + 1 < t0.length then t0.length
                          else f0.length + 1))).take
                        (nextPow2 (if f0.length + 1 < t0.length then t0.length
                          else f0.length + 1) - 1))
                        (foldTable (derive cs) lts
                        (nextPow2 (if f0.length + 1 < t0.length then t0.length
                          else f0.length + 1)))).2 with
                    | none => rw [hiv] at h2; simp at h2
                    | some ie => rw [hiv] at h2; simp at h2
          · rw [if_pos (by simp [htu])]
            refine iff_of_true rfl (Or.inr (Or.inr ?_))
            rw [checkUniform_iff] at htu
            push_neg at htu
            obtain ⟨row, hr, hne⟩ := htu
            exact ⟨row, List.mem_cons_of_mem _ hr, hne⟩
        · rw [if_pos (by simp [hfu])]
          refine iff_of_true rfl (Or.inr (Or.inl ?_))
          rw [checkUniform_iff] at hfu
          push_neg at hfu
          obtain ⟨row, hr, hne⟩ := hfu
          exact ⟨row, List.mem_cons_of_mem _ hr, hne⟩
  · rw [proveLookupTables, if_pos (by simpa using hlen)]
    exact iff_of_true rfl (Or.inl hlen)

theorem clogAux_spec (fuel : ℕ) : ∀ n : ℕ, n ≤ fuel + 1 →
    n ≤ 2 ^ clogAux fuel n ∧ ∀ k, n ≤ 2 ^ k → clogAux fuel n ≤ k := by
  induction fuel with
  | zero =>
      intro n hn
      have h0 : clogAux 0 n = 0 := rfl
      rw [h0]
      exact ⟨by simpa using hn, fun k _ => Nat.zero_le k⟩
  | succ fuel ih =>
      intro n hn
      by_cases h1 : n ≤ 1
      · rw [show clogAux (fuel + 1) n = 0 from by rw [clogAux, if_pos h1]]
        exact ⟨by simpa using h1, fun k _ => Nat.zero_le k⟩
      · rw [show clogAux (fuel + 1) n = clogAux fuel ((n + 1) / 2) + 1 from by
          rw [clogAux, if_neg h1]]
        have hfit : (n + 1) / 2 ≤ fuel + 1 := by omega
        obtain ⟨ih1, ih2⟩ := ih ((n + 1) / 2) hfit
        constructor
        · have hdouble : n ≤ 2 * ((n + 1) / 2) := by omega
          calc n ≤ 2 * ((n + 1) / 2) := hdouble
            _ ≤ 2 * 2 ^ clogAux fuel ((n + 1) / 2) := Nat.mul_le_mul_left 2 ih1
            _ = 2 ^ (clogAux fuel ((n + 1) / 2) + 1) := (pow_succ' 2 _).symm
        · intro k hk
          cases k with
          | zero => simp at hk; omega
          | succ k' =>
              have hks : 2 ^ (k' + 1) = 2 * 2 ^ k' := pow_succ' 2 k'
              have : (n + 1) / 2 ≤ 2 ^ k' := by omega
              have := ih2 k' this
              omega

theorem le_nextPow2 (n : ℕ) : n ≤ nextPow2 n :=
  (clogAux_spec n n (Nat.le_succ n)).1

theorem nextPow2_le_pow (n k : ℕ) (h : n ≤ 2 ^ k) : nextPow2 n ≤ 2 ^ k :=
  Nat.pow_le_pow_right (by norm_num) ((clogAux_spec n n (Nat.le_succ n)).2 k h)

theorem padRowP_eq_padSpec (row : List Fp) (n : ℕ) (h : row ≠ []) :
    padRowP row n = some (padSpec row n) := by
  cases row with
  | nil => exact absurd rfl h
  | cons a rest => rfl

theorem rowsLoop_ok {D CE : Type} (fftInv bitRev : List Fp → List Fp)
    (commit : List Fp → Except CE D) (N : ℕ) :
    ∀ (f t : List (List Fp)) (cs : List D),
      f.length = t.length →
      (∀ row ∈ f, row ≠ []) → (∀ row ∈ t, row ≠ []) →
      f.map (fun row => commit (bitRev (fftInv (padSpec row N)))) = cs.map Except.ok →
      rowsLoop fftInv bitRev commit N (f.zip t)
        = .ok (.ok (cs, f.map (fun row => padSpec row N), t.map (fun row => padSpec row N)))
  | [], t, cs => by
      intro hlen _ _ hcs
      have ht : t = [] := by
        cases t with
        | nil => rfl
        | cons t0 tr => simp at hlen
      have hc : cs = [] := by
        cases cs with
        | nil => rfl
        | cons c0 cr => simp at hcs
      subst ht
      subst hc
      rfl
  | f0 :: fr, t, cs => by
      intro hlen hfne htne hcs
      obtain ⟨t0, tr, rfl⟩ : ∃ t0 tr, t = t0 :: tr := by
        cases t with
        | nil => simp at hlen
        | cons t0 tr => exact ⟨t0, tr, rfl⟩
      obtain ⟨c0, cr, rfl⟩ : ∃ c0 cr, cs = c0 :: cr := by
        cases cs with
        | nil => simp at hcs
        | cons c0 cr => exact ⟨c0, cr, rfl⟩
      simp only [List.map_cons, List.cons.injEq] at hcs
      obtain ⟨hc0, hcr⟩ := hcs
      have ih := rowsLoop_ok fftInv bitRev commit N fr tr cr (by simpa using hlen)
        (fun row hr => hfne row (List.mem_cons_of_mem _ hr))
        (fun row hr => htne row (List.mem_cons_of_mem _ hr)) hcr
      rw [show (f0 :: fr).zip (t0 :: tr) = (f0, t0) :: fr.zip tr from rfl, rowsLoop,
        padRowP_eq_padSpec f0 N (hfne f0 (List.mem_cons_self f0 fr)),
        padRowP_eq_padSpec t0 N (htne t0 (List.mem_cons_self t0 tr))]
      dsimp only
      rw [hc0]
      dsimp only
      rw [ih]
      rfl

/-- Claim C4: for size-compatible tables with nonempty rows whose commitments
succeed, the prover sizes its domain to the smallest power of two at least
`max(s_f + 1, s_t)`, pads every row to that column count by repeating its last
element, and invokes the inner single-column prover on the folded query
truncated to its first `nbCols - 1` entries together with the full folded
reference table; when `s_t > s_f + 1` the domain size is `s_t` rounded up to a
power of two. -/
theorem prover_domain_padding_truncation {D R CE IE : Type}
    (fftInv bitRev : List Fp → List Fp) (commit : List Fp → Except CE D)
    (derive : List D → Fp) (proveVec : List Fp → List Fp → PLVProof D R × Option IE)
    (d0 : D) (ip0 : PLVProof D R)
    (f t : List (List Fp)) (sf st : ℕ) (cs : List D)
    (hlen : f.length = t.length) (hne : f ≠ [])
    (hsf : 1 ≤ sf) (hst : 1 ≤ st)
    (hf : ∀ row ∈ f, row.length = sf) (ht : ∀ row ∈ t, row.length = st)
    (hcs : f.map (fun row => commit (bitRev (fftInv
        (padSpec row (nextPow2 (max (sf + 1) st)))))) = cs.map Except.ok) :
    (proveLookupTables fftInv bitRev commit derive proveVec d0 ip0 f t
        = .ok (⟨cs,
            (proveVec
              ((foldTable (derive cs)
                  (f.map (fun row => padSpec row (nextPow2 (max (sf + 1) st))))
                  (nextPow2 (max (sf + 1) st))).take (nextPow2 (max (sf + 1) st) - 1))
              (foldTable (derive cs)
                  (t.map (fun row => padSpec row (nextPow2 (max (sf + 1) st))))
                  (nextPow2 (max (sf + 1) st)))).1⟩,
          ((proveVec
              ((foldTable (derive cs)
                  (f.map (fun row => padSpec row (nextPow2 (max (sf + 1) st))))
                  (nextPow2 (max (sf + 1) st))).take (nextPow2 (max (sf + 1) st) - 1))
              (foldTable (derive cs)
                  (t.map (fun row => padSpec row (nextPow2 (max (sf + 1) st))))
                  (nextPow2 (max (sf + 1) st)))).2).map ProveErr.innerErr))
    ∧ ((∃ k, nextPow2 (max (sf + 1) st) = 2 ^ k)
      ∧ max (sf + 1) st ≤ nextPow2 (max (sf + 1) st)
      ∧ ∀ m k, m = 2 ^ k → max (sf + 1) st ≤ m → nextPow2 (max (sf + 1) st) ≤ m)
    ∧ (sf + 1 < st → nextPow2 (max (sf + 1) st) = nextPow2 st) := by
  refine ⟨?_, ⟨⟨clogTwo (max (sf + 1) st), rfl⟩, le_nextPow2 _, ?_⟩, ?_⟩
  case refine_2 =>
    intro m k hm hle
    subst hm
    exact nextPow2_le_pow _ k hle
  case refine_3 =>
    intro h
    rw [Nat.max_eq_right (Nat.le_of_lt h)]
  obtain ⟨f0, fr, rfl⟩ := List.exists_cons_of_ne_nil hne
  obtain ⟨t0, tr, rfl⟩ : ∃ t0 tr, t = t0 :: tr := by
    cases t with
    | nil => simp at hlen
    | cons t0 tr => exact ⟨t0, tr, rfl⟩
  have hf0 : f0.length = sf := hf f0 (List.mem_cons_self f0 fr)
  have ht0 : t0.length = st := ht t0 (List.mem_cons_self t0 tr)
  have hcolsel : (if f0.length + 1 < t0.length then t0.length else f0.length + 1)
      = max (sf + 1) st := by
    rw [hf0, ht0]
    split <;> omega
  have hfu : checkUniform f0.length fr = true := by
    rw [checkUniform_iff]
    intro row hr
    rw [hf row (List.mem_cons_of_mem _ hr), hf0]
  have htu : checkUniform t0.length tr = true := by
    rw [checkUniform_iff]
    intro row hr
    rw [ht row (List.mem_cons_of_mem _ hr), ht0]
  have hfne : ∀ row ∈ f0 :: fr, row ≠ [] := by
    intro row hr
    have := hf row hr
    intro hnil
    rw [hnil] at this
    simp at this
    omega
  have htne : ∀ row ∈ t0 :: tr, row ≠ [] := by
    intro row hr
    have := ht row hr
    intro hnil
    rw [hnil] at this
    simp at this
    omega
  have hloop := rowsLoop_ok fftInv bitRev commit (nextPow2 (max (sf + 1) st))
    (f0 :: fr) (t0 :: tr) cs hlen hfne htne hcs
  rw [proveLookupTables, if_neg (by simpa using hlen)]
  simp only [List.get?_cons_zero, List.drop_succ_cons, List.drop_zero]
  rw [if_neg (by simp [hfu]), if_neg (by simp [htu])]
  rw [hcolsel, hloop]

/-- Witness for C4 on the one-row tables `f = [[1,2]]`, `t = [[4,5]]`
(`s_f = s_t = 2`, domain `nextPow2 3 = 4`). -/
theorem prover_domain_padding_truncation_witness :
    (([[1, 2]] : List (List Fp)).length = ([[4, 5]] : List (List Fp)).length
      ∧ ([[1, 2]] : List (List Fp)) ≠ [] ∧ 1 ≤ 2) ∧
    ((proveLookupTables id id lenCommit constDerive lenProveVec 0 ⟨0, ()⟩
        [[1, 2]] [[4, 5]]
        = .ok (⟨[4],
            (lenProveVec
              ((foldTable (constDerive [4])
                  (([[1, 2]] : List (List Fp)).map
                    (fun row => padSpec row (nextPow2 (max (2 + 1) 2))))
                  (nextPow2 (max (2 + 1) 2))).take (nextPow2 (max (2 + 1) 2) - 1))
              (foldTable (constDerive [4])
                  (([[4, 5]] : List (List Fp)).map
                    (fun row => padSpec row (nextPow2 (max (2 + 1) 2))))
                  (nextPow2 (max (2 + 1) 2)))).1⟩,
          ((lenProveVec
              ((foldTable (constDerive [4])
                  (([[1, 2]] : List (List Fp)).map
                    (fun row => padSpec row (nextPow2 (max (2 + 1) 2))))
                  (nextPow2 (max (2 + 1) 2))).take (nextPow2 (max (2 + 1) 2) - 1))
              (foldTable (constDerive [4])
                  (([[4, 5]] : List (List Fp)).map
                    (fun row => padSpec row (nextPow2 (max (2 + 1) 2))))
                  (nextPow2 (max (2 + 1) 2)))).2).map ProveErr.innerErr))
      ∧ ((∃ k, nextPow2 (max (2 + 1) 2) = 2 ^ k)
        ∧ max (2 + 1) 2 ≤ nextPow2 (max (2 + 1) 2)
        ∧ ∀ m k, m = 2 ^ k → max (2 + 1) 2 ≤ m → nextPow2 (max (2 + 1) 2) ≤ m)
      ∧ (2 + 1 < 2 → nextPow2 (max (2 + 1) 2) = nextPow2 2)) :=
  ⟨⟨rfl, by simp, by norm_num⟩,
   prover_domain_padding_truncation id id lenCommit constDerive lenProveVec 0 ⟨0, ()⟩
     [[1, 2]] [[4, 5]] 2 2 [4] rfl (by simp) (by norm_num) (by norm_num)
     (by simp) (by simp) rfl⟩

end Spec2Proof
